import Mathlib

/-!
Shallow embedding of the quantitative engine of `src/app.py`
(class `FinancialEngine` and the per-ticker batch loop).

Prices and returns are modelled as rationals.  The few places where the
Python/pandas code relies on IEEE-754 special values (the RSI computation
divides a rolling mean by a rolling mean that can be zero, producing
`inf` or `nan`, and the rule cascade compares possibly-`nan` floats) are
modelled by the type `EFloat` below, whose operations follow IEEE-754
semantics for the operations the source actually performs (signed zero
is irrelevant here and is not modelled).
-/

set_option maxRecDepth 8000

namespace StockApp

/-- A float value: finite rational, `+inf`, `-inf`, or `nan`. -/
inductive EFloat where
  | nan : EFloat
  | inf : EFloat
  | ninf : EFloat
  | fin : ℚ → EFloat
deriving DecidableEq

/-- IEEE negation. -/
def fneg : EFloat → EFloat
  | .nan => .nan
  | .inf => .ninf
  | .ninf => .inf
  | .fin q => .fin (-q)

/-- IEEE addition (no signed zero). -/
def fadd : EFloat → EFloat → EFloat
  | .nan, _ => .nan
  | _, .nan => .nan
  | .inf, .ninf => .nan
  | .ninf, .inf => .nan
  | .inf, _ => .inf
  | _, .inf => .inf
  | .ninf, _ => .ninf
  | _, .ninf => .ninf
  | .fin a, .fin b => .fin (a + b)

/-- IEEE subtraction. -/
def fsub (a b : EFloat) : EFloat := fadd a (fneg b)

/-- IEEE multiplication. -/
def fmul : EFloat → EFloat → EFloat
  | .nan, _ => .nan
  | _, .nan => .nan
  | .inf, .inf => .inf
  | .inf, .ninf => .ninf
  | .ninf, .inf => .ninf
  | .ninf, .ninf => .inf
  | .inf, .fin q => if 0 < q then .inf else if q < 0 then .ninf else .nan
  | .fin q, .inf => if 0 < q then .inf else if q < 0 then .ninf else .nan
  | .ninf, .fin q => if 0 < q then .ninf else if q < 0 then .inf else .nan
  | .fin q, .ninf => if 0 < q then .ninf else if q < 0 then .inf else .nan
  | .fin a, .fin b => .fin (a * b)

/-- IEEE division (no signed zero, so `a/0` for `a > 0` is `inf`). -/
def fdiv : EFloat → EFloat → EFloat
  | .nan, _ => .nan
  | _, .nan => .nan
  | .inf, .inf => .nan
  | .inf, .ninf => .nan
  | .ninf, .inf => .nan
  | .ninf, .ninf => .nan
  | .inf, .fin q => if 0 ≤ q then .inf else .ninf
  | .ninf, .fin q => if 0 ≤ q then .ninf else .inf
  | .fin _, .inf => .fin 0
  | .fin _, .ninf => .fin 0
  | .fin a, .fin b =>
      if b = 0 then (if 0 < a then .inf else if a < 0 then .ninf else .nan)
      else .fin (a / b)

/-- IEEE strict less-than: any comparison with `nan` is false. -/
def flt : EFloat → EFloat → Bool
  | .nan, _ => false
  | _, .nan => false
  | .inf, _ => false
  | .ninf, .ninf => false
  | .ninf, _ => true
  | .fin _, .inf => true
  | .fin _, .ninf => false
  | .fin a, .fin b => decide (a < b)

/-- IEEE strict greater-than. -/
def fgt (a b : EFloat) : Bool := flt b a

/-- One daily bar of the OHLCV series (`open` and `volume` are unused by
the engine and omitted). -/
structure Bar where
  high : ℚ
  low : ℚ
  close : ℚ
deriving DecidableEq

/-- The trailing `w` elements of a list (`xs[-w:]`). -/
def lastN (w : ℕ) (xs : List ℚ) : List ℚ := xs.drop (xs.length - w)

/-- Mirrors `series.rolling(w).mean().iloc[-1]` for a series of finite values:
`nan` when fewer than `w` observations exist, else the mean of the
trailing `w` values. -/
def rollMeanLast (w : ℕ) (xs : List ℚ) : EFloat :=
  if xs.length < w then .nan else .fin ((lastN w xs).sum / (w : ℚ))

/-- Mirrors `close.diff()` without its leading `NaN`: `diffs[i] = close[i+1] - close[i]`. -/
def diffsOf (closes : List ℚ) : List ℚ :=
  List.zipWith (fun a b => a - b) closes.tail closes

/-- Mirrors `delta.where(delta > 0, 0)`.  The leading `NaN` of `diff()` compares
false against `0`, so `where` replaces it by `0`: hence the leading `0`. -/
def gainsList (closes : List ℚ) : List ℚ :=
  0 :: (diffsOf closes).map (fun d => if 0 < d then d else 0)

/-- Mirrors `-delta.where(delta < 0, 0)`, with the leading `NaN` likewise zeroed. -/
def lossList (closes : List ℚ) : List ℚ :=
  0 :: (diffsOf closes).map (fun d => if d < 0 then -d else 0)

/-- Mirrors `gain.rolling(14).mean().iloc[-1]`. -/
def gainAvg (closes : List ℚ) : EFloat := rollMeanLast 14 (gainsList closes)

/-- Mirrors `loss.rolling(14).mean().iloc[-1]`. -/
def lossAvg (closes : List ℚ) : EFloat := rollMeanLast 14 (lossList closes)

/-- Mirrors `rs = gain / loss` at the last index (float division: `pos/0 = inf`,
`0/0 = nan`). -/
def rsOf (closes : List ℚ) : EFloat := fdiv (gainAvg closes) (lossAvg closes)

/-- Mirrors `rsi = 100 - (100 / (1 + rs)).iloc[-1]`. -/
def rsiOf (closes : List ℚ) : EFloat :=
  fsub (.fin 100) (fdiv (.fin 100) (fadd (.fin 1) (rsOf closes)))

/-- Mirrors `close.iloc[-1]` (the series handed to the engine is nonempty). -/
def priceOf (closes : List ℚ) : ℚ := closes.getLastD 0

/-- Mirrors `close.iloc[-2]`. -/
def prevPriceOf (closes : List ℚ) : ℚ := closes.dropLast.getLastD 0

/-- Mirrors `ma20 = close.rolling(20).mean().iloc[-1]`. -/
def ma20Of (closes : List ℚ) : EFloat := rollMeanLast 20 closes

/-- Mirrors `ma60 = close.rolling(60).mean().iloc[-1]`. -/
def ma60Of (closes : List ℚ) : EFloat := rollMeanLast 60 closes

/-- Mirrors `bias_20 = ((price - ma20) / ma20) * 100`. -/
def biasOf (closes : List ℚ) : EFloat :=
  fmul (fdiv (fsub (.fin (priceOf closes)) (ma20Of closes)) (ma20Of closes)) (.fin 100)

/-- Mirrors `change = (price - prev_price) / prev_price * 100`. -/
def changePctOf (closes : List ℚ) : EFloat :=
  fmul (fdiv (fsub (.fin (priceOf closes)) (.fin (prevPriceOf closes)))
    (.fin (prevPriceOf closes))) (.fin 100)

/-- True-range entries after the first bar:
`max(high-low, |high-prev_close|, |low-prev_close|)`. -/
def trRest (prevClose : ℚ) : List Bar → List ℚ
  | [] => []
  | b :: bs =>
      max (b.high - b.low) (max |b.high - prevClose| |b.low - prevClose|) :: trRest b.close bs

/-- The true-range series.  For the first bar `prev_close` is `NaN`, and
pandas `max(axis=1)` skips `NaN`, leaving `high - low`. -/
def trList : List Bar → List ℚ
  | [] => []
  | b :: bs => (b.high - b.low) :: trRest b.close bs

/-- Mirrors `calculate_atr`: `tr.rolling(14).mean().iloc[-1]`. -/
def atrOf (bars : List Bar) : EFloat := rollMeanLast 14 (trList bars)

/-- Mirrors `atr_pct = (atr / price) * 100`. -/
def atrPctOf (bars : List Bar) : EFloat :=
  fmul (fdiv (atrOf bars) (.fin (priceOf (bars.map Bar.close)))) (.fin 100)

/-- The five distinct outcomes of the analyst rule cascade, named after
the branch of `get_market_overview` that assigns them.  `defaultHold` is
the initial assignment kept when no branch fires; `bearishSell` is
"減持 / 賣出 (Underweight)"; `bullishBuy` is "增持 / 買入 (Overweight)";
`bullishTakeProfit` is "中立 / 止盈 (Neutral)" take-profit;
`bullishHold` is the trend-following hold of the bullish else-branch. -/
inductive Advice where
  | defaultHold
  | bearishSell
  | bullishBuy
  | bullishTakeProfit
  | bullishHold
deriving DecidableEq

/-- The `if price < ma20 / elif price > ma20 and ma20 > ma60 / ...`
cascade of `get_market_overview`.  `rsi` is in scope in the source but
never read by any condition of the cascade. -/
def classify (price ma20 ma60 bias rsi : EFloat) : Advice :=
  if flt price ma20 then .bearishSell
  else if fgt price ma20 && fgt ma20 ma60 then
    (if flt bias (.fin 8) then .bullishBuy
     else if fgt bias (.fin 15) then .bullishTakeProfit
     else .bullishHold)
  else .defaultHold

/-- The metrics bundle returned by `get_market_overview` (rationale
strings and colors carry no further numeric content and are identified
with the `rating` branch). -/
structure Overview where
  price : ℚ
  changePct : EFloat
  ma20 : EFloat
  rsi : EFloat
  bias : EFloat
  atrPct : EFloat
  rating : Advice
deriving DecidableEq

/-- Mirrors `FinancialEngine.get_market_overview`. -/
def getMarketOverview (bars : List Bar) : Overview :=
  let closes := bars.map Bar.close
  { price := priceOf closes
    changePct := changePctOf closes
    ma20 := ma20Of closes
    rsi := rsiOf closes
    bias := biasOf closes
    atrPct := atrPctOf bars
    rating := classify (.fin (priceOf closes)) (ma20Of closes) (ma60Of closes)
      (biasOf closes) (rsiOf closes) }

/-- Mirrors `df['Close'].pct_change().dropna()`: simple daily returns, the
leading `NaN` dropped. -/
def returnsOf (closes : List ℚ) : List ℚ :=
  List.zipWith (fun a b => (a - b) / b) closes.tail closes

/-- Mirrors `block_size = 5` of `run_monte_carlo_var`. -/
def blockSize : ℕ := 5

/-- One path's `path_returns`: the loop
`for _ in range(num_blocks): path_returns.extend(returns[s : s + block_size])`
with `s = draw j` the `j`-th random start index of this path. -/
def pathReturns (returns : List ℚ) (numBlocks : ℕ) (draw : ℕ → ℕ) : List ℚ :=
  (List.range numBlocks).foldl
    (fun acc j => acc ++ (returns.drop (draw j)).take blockSize) []

/-- Mirrors `np.cumprod` seeded with an accumulator. -/
def cumprodFrom (acc : ℚ) : List ℚ → List ℚ
  | [] => []
  | x :: xs => (acc * x) :: cumprodFrom (acc * x) xs

/-- Mirrors `np.cumprod`. -/
def cumprod (l : List ℚ) : List ℚ := cumprodFrom 1 l

/-- One simulated path: `last_price * np.cumprod(1 + path_returns)`. -/
def simPath (returns : List ℚ) (lastPrice : ℚ) (numBlocks : ℕ) (draw : ℕ → ℕ) : List ℚ :=
  (cumprod ((pathReturns returns numBlocks draw).map (fun r => 1 + r))).map
    (fun c => lastPrice * c)

/-- Insert into a sorted list, keeping ascending order. -/
def sortedInsert (x : ℚ) : List ℚ → List ℚ
  | [] => [x]
  | y :: ys => if x ≤ y then x :: y :: ys else y :: sortedInsert x ys

/-- Ascending insertion sort. -/
def sortAsc (l : List ℚ) : List ℚ := l.foldr sortedInsert []

/-- Mirrors `np.percentile(xs, q)` with the default linear interpolation:
on the ascending sort `a`, `h = (n-1)*q/100`, and the result is
`a[floor h] + (h - floor h) * (a[ceil h] - a[floor h])`. -/
def percentile (q : ℚ) (xs : List ℚ) : ℚ :=
  let s := sortAsc xs
  let h : ℚ := ((s.length : ℚ) - 1) * q / 100
  let a := s.getD (⌊h⌋).toNat 0
  let b := s.getD (⌈h⌉).toNat 0
  a + (h - (⌊h⌋ : ℚ)) * (b - a)

/-- What `run_monte_carlo_var` returns:
`(sim_paths, max_dd, win_rate, p5)`. -/
structure MCResult where
  simPaths : List (List ℚ)
  maxDd : ℚ
  winRate : ℚ
  p5 : ℚ
deriving DecidableEq

/-- Mirrors the success path of `FinancialEngine.run_monte_carlo_var`:
the summary the source returns whenever every row assignment into the
preallocated matrix fits, i.e. whenever each simulated path fills its
`days`-long row (`runMonteCarloVarNp` below models the raising row
assignment itself and agrees with this definition on the success path).
The process-global random source is modelled as an oracle `draw`:
`draw i j` is the value returned by the `j`-th call to
`np.random.randint(0, len(returns) - block_size)` made while building
path `i`.  The terminal prices `sim_paths[:, -1]` are the last entries
of the paths. -/
def runMonteCarloVar (closes : List ℚ) (draw : ℕ → ℕ → ℕ)
    (simulations days : ℕ) : MCResult :=
  let returns := returnsOf closes
  let lastPrice := priceOf closes
  let numBlocks := days / blockSize
  let paths := (List.range simulations).map
    (fun i => simPath returns lastPrice numBlocks (draw i))
  let finals := paths.map (fun p => p.getLastD 0)
  let p5 := percentile 5 finals
  { simPaths := paths
    maxDd := (p5 - lastPrice) / lastPrice * 100
    winRate := ((finals.countP (fun t => lastPrice < t) : ℕ) : ℚ) / (simulations : ℚ) * 100
    p5 := p5 }

/-- Mirrors the numpy row assignment `sim_paths[i] = value` into one row
of the preallocated `np.zeros((simulations, days))` matrix: a 1-D value
broadcasts iff its length is `days` (copied as is) or `1` (repeated
across the row); any other length raises `ValueError`, modelled as
`Except.error`. -/
def npRowAssign (days : ℕ) (path : List ℚ) : Except Unit (List ℚ) :=
  if path.length = days then .ok path
  else if path.length = 1 then .ok (List.replicate days (path.getD 0 0))
  else .error ()

/-- The tail of `run_monte_carlo_var` after the simulation loop:
`final_prices = sim_paths[:, -1]` raises `IndexError` when the matrix
has zero columns (`days = 0`), and `np.percentile` raises on an empty
array (`simulations = 0`); otherwise the summary is computed from the
last column.  Rows on the success path have length `days`, so the last
column entry of a row is `getD (days - 1)`. -/
def mcSummaryOf (lastPrice : ℚ) (simulations days : ℕ) (rows : List (List ℚ)) :
    Except Unit MCResult :=
  if days = 0 then .error ()
  else if simulations = 0 then .error ()
  else
    let finals := rows.map (fun p => p.getD (days - 1) 0)
    let p5 := percentile 5 finals
    .ok { simPaths := rows
          maxDd := (p5 - lastPrice) / lastPrice * 100
          winRate := ((finals.countP (fun t => lastPrice < t) : ℕ) : ℚ) /
            (simulations : ℚ) * 100
          p5 := p5 }

/-- Mirrors `FinancialEngine.run_monte_carlo_var` together with its
error paths: the loop assigns
`sim_paths[i] = last_price * np.cumprod(1 + path_returns)` into the
preallocated `simulations × days` matrix and raises a broadcast
`ValueError` at the first row whose `(days // block_size) · block_size`
entries do not fill the row (the `mapM` short-circuits like the raising
loop); afterwards `mcSummaryOf` models the `sim_paths[:, -1]` and
`np.percentile` raises.  On the success path the returned summary is
exactly `runMonteCarloVar` (proved in `mc_block_drawing`). -/
def runMonteCarloVarNp (closes : List ℚ) (draw : ℕ → ℕ → ℕ)
    (simulations days : ℕ) : Except Unit MCResult :=
  let returns := returnsOf closes
  let lastPrice := priceOf closes
  let numBlocks := days / blockSize
  Except.bind
    ((List.range simulations).mapM
      (fun i => npRowAssign days (simPath returns lastPrice numBlocks (draw i))))
    (mcSummaryOf lastPrice simulations days)

/-- The minimum history length `fetch_data` accepts (`if len(df) < 200`). -/
def minLookback : ℕ := 200

/-- Mirrors `FinancialEngine.fetch_data`.  The external download either raises
(modelled `Except.error`) or returns a series; any exception and any
series shorter than `minLookback` both yield the no-data sentinel `none`. -/
def fetchData (r : Except Unit (List Bar)) : Option (List Bar) :=
  match r with
  | .error _ => none
  | .ok df => if df.length < minLookback then none else some df

/-- One iteration of the tab-1 ticker loop: fetch, and analyse only when
`df is not None`. -/
def processTicker (r : Except Unit (List Bar)) : Option Overview :=
  (fetchData r).map getMarketOverview

/-- The tab-1 batch loop over tickers: each ticker is processed from its
own fetch result alone. -/
def processBatch (rs : List (Except Unit (List Bar))) : List (Option Overview) :=
  rs.map processTicker

/-- The market suffix `".TW"` as characters. -/
def twSuffix : List Char := ['.', 'T', 'W']

/-- Mirrors `ticker.endswith('.TW')`: the trailing three characters equal `".TW"`. -/
def hasTwSuffix (t : List Char) : Bool := decide (t.drop (t.length - 3) = twSuffix)

/-- Mirrors `FinancialEngine.__init__` normalization:
`f"{ticker}.TW" if not ticker.endswith('.TW') else ticker`. -/
def normalizeTicker (t : List Char) : List Char :=
  if hasTwSuffix t then t else t ++ twSuffix

/-! ### Helper lemmas about the float comparisons and the cascade -/

lemma flt_asymm {a b : EFloat} (h : flt a b = true) : flt b a = false := by
  cases a <;> cases b <;> simp_all [flt] <;> linarith

lemma fgt_fin15_not_flt_fin8 {x : EFloat} (h : fgt x (.fin 15) = true) :
    flt x (.fin 8) = false := by
  cases x <;> simp_all [fgt, flt] <;> linarith

lemma overview_rating (bars : List Bar) :
    (getMarketOverview bars).rating =
      classify (.fin (priceOf (bars.map Bar.close))) (ma20Of (bars.map Bar.close))
        (ma60Of (bars.map Bar.close)) (biasOf (bars.map Bar.close))
        (rsiOf (bars.map Bar.close)) := rfl

lemma classify_sell {price ma20 ma60 bias rsi : EFloat} (h : flt price ma20 = true) :
    classify price ma20 ma60 bias rsi = .bearishSell := by
  unfold classify
  rw [if_pos h]

lemma classify_eq_buy {price ma20 ma60 bias rsi : EFloat} :
    classify price ma20 ma60 bias rsi = .bullishBuy ↔
      (fgt price ma20 = true ∧ fgt ma20 ma60 = true ∧ flt bias (.fin 8) = true) := by
  unfold classify
  by_cases h1 : flt price ma20 = true
  · have h2 : fgt price ma20 = false := flt_asymm h1
    simp [h1, h2]
  · rw [Bool.not_eq_true] at h1
    rw [if_neg (by simp [h1])]
    cases h2 : (fgt price ma20 && fgt ma20 ma60) with
    | false =>
        rw [if_neg (by simp [h2])]
        rw [Bool.and_eq_false_iff] at h2
        constructor
        · intro hc; exact absurd hc (by simp)
        · rintro ⟨ha, hb, _⟩
          rcases h2 with h2 | h2 <;> simp_all
    | true =>
        rw [if_pos (by simp [h2])]
        rw [Bool.and_eq_true] at h2
        by_cases h3 : flt bias (.fin 8) = true
        · simp [h3, h2]
        · rw [Bool.not_eq_true] at h3
          rw [if_neg (by simp [h3])]
          by_cases h4 : fgt bias (.fin 15) = true
          · simp [h4, h3]
          · rw [Bool.not_eq_true] at h4
            simp [h4, h3]

lemma classify_eq_takeProfit {price ma20 ma60 bias rsi : EFloat} :
    classify price ma20 ma60 bias rsi = .bullishTakeProfit ↔
      (fgt price ma20 = true ∧ fgt ma20 ma60 = true ∧ fgt bias (.fin 15) = true) := by
  unfold classify
  by_cases h1 : flt price ma20 = true
  · have h2 : fgt price ma20 = false := flt_asymm h1
    simp [h1, h2]
  · rw [Bool.not_eq_true] at h1
    rw [if_neg (by simp [h1])]
    cases h2 : (fgt price ma20 && fgt ma20 ma60) with
    | false =>
        rw [if_neg (by simp [h2])]
        rw [Bool.and_eq_false_iff] at h2
        constructor
        · intro hc; exact absurd hc (by simp)
        · rintro ⟨ha, hb, _⟩
          rcases h2 with h2 | h2 <;> simp_all
    | true =>
        rw [if_pos (by simp [h2])]
        rw [Bool.and_eq_true] at h2
        by_cases h3 : flt bias (.fin 8) = true
        · constructor
          · intro hc; exact absurd hc (by simp [h3])
          · rintro ⟨_, _, h15⟩
            exact absurd (fgt_fin15_not_flt_fin8 h15) (by simp [h3])
        · rw [Bool.not_eq_true] at h3
          rw [if_neg (by simp [h3])]
          by_cases h4 : fgt bias (.fin 15) = true
          · simp [h4, h2]
          · rw [Bool.not_eq_true] at h4
            simp [h4, h2]

/-! ### Concrete series used by witnesses and counterexamples -/

/-- Build bars whose high, low and close all equal the given close. -/
def constBars (closes : List ℚ) : List Bar :=
  closes.map (fun c => { high := c, low := c, close := c })

lemma constBars_closes (closes : List ℚ) : (constBars closes).map Bar.close = closes := by
  induction closes with
  | nil => rfl
  | cons c cs ih => simpa [constBars] using ih

/-- A 60-bar series with latest close 90, MA20 = 100 and MA60 = 95:
the claim C1 example situation (price strictly below MA20). -/
def closes60sell : List ℚ :=
  (List.replicate 40 (185/2 : ℚ) ++ [110] ++ List.replicate 18 100) ++ [90]

/-- A 200-bar series with latest close 200, MA20 = 105, MA60 = 235 and
bias ≈ +90.5%: overextended (bias > 15) yet with MA20 < MA60, so the
bullish branch of the cascade never fires. -/
def closes200hold : List ℚ :=
  (List.replicate 180 (300 : ℚ) ++ List.replicate 19 100) ++ [200]

lemma ev60_price : priceOf closes60sell = 90 := by
  rw [closes60sell, priceOf, List.getLastD_concat]

lemma ev60_ma20 : ma20Of closes60sell = .fin 100 := by
  rw [ma20Of, rollMeanLast, if_neg (by simp [closes60sell])]
  have h : lastN 20 closes60sell = [110] ++ List.replicate 18 (100:ℚ) ++ [90] := by
    rw [closes60sell, lastN]
    norm_num [List.drop_append_eq_append_drop, List.drop_replicate]
  rw [h]
  norm_num [List.sum_replicate]

lemma ev60_ma60 : ma60Of closes60sell = .fin 95 := by
  rw [ma60Of, rollMeanLast, if_neg (by simp [closes60sell])]
  have h : lastN 60 closes60sell = closes60sell := by
    rw [lastN, show closes60sell.length - 60 = 0 by simp [closes60sell], List.drop_zero]
  rw [h, closes60sell]
  norm_num [List.sum_replicate]

lemma ev200_price : priceOf closes200hold = 200 := by
  rw [closes200hold, priceOf, List.getLastD_concat]

lemma ev200_ma20 : ma20Of closes200hold = .fin 105 := by
  rw [ma20Of, rollMeanLast, if_neg (by simp [closes200hold])]
  have h : lastN 20 closes200hold = List.replicate 19 (100:ℚ) ++ [200] := by
    rw [closes200hold, lastN]
    norm_num [List.drop_append_eq_append_drop, List.drop_replicate]
  rw [h]
  norm_num [List.sum_replicate]

lemma ev200_ma60 : ma60Of closes200hold = .fin 235 := by
  rw [ma60Of, rollMeanLast, if_neg (by simp [closes200hold])]
  have h : lastN 60 closes200hold =
      List.replicate 40 (300:ℚ) ++ (List.replicate 19 (100:ℚ) ++ [200]) := by
    rw [closes200hold, lastN]
    norm_num [List.drop_append_eq_append_drop, List.drop_replicate, List.append_assoc]
  rw [h]
  norm_num [List.sum_replicate]

lemma ev200_bias : biasOf closes200hold = .fin (1900/21) := by
  rw [biasOf, ev200_price, ev200_ma20]
  norm_num [fsub, fadd, fneg, fdiv, fmul]

/-! ### C1, C2, C7: the rule cascade -/

/-- C1: capital preservation first — for every input series, whenever the
latest close is strictly below MA20, the classifier returns the SELL/EXIT
(Underweight) rating, regardless of bias, RSI or MA60. -/
theorem sell_exit_dominates (bars : List Bar)
    (h : flt (.fin (priceOf (bars.map Bar.close))) (ma20Of (bars.map Bar.close)) = true) :
    (getMarketOverview bars).rating = .bearishSell := by
  rw [overview_rating]
  exact classify_sell h

/-- Witness for C1: on a 60-bar series with latest close 90, MA20 = 100
and MA60 = 95 (the spec's example values), the rating is SELL/EXIT. -/
theorem sell_exit_dominates_witness :
    flt (.fin (priceOf ((constBars closes60sell).map Bar.close)))
      (ma20Of ((constBars closes60sell).map Bar.close)) = true ∧
    (getMarketOverview (constBars closes60sell)).rating = .bearishSell := by
  have h : flt (.fin (priceOf ((constBars closes60sell).map Bar.close)))
      (ma20Of ((constBars closes60sell).map Bar.close)) = true := by
    rw [constBars_closes, ev60_price, ev60_ma20]
    norm_num [flt]
  exact ⟨h, sell_exit_dominates _ h⟩

/-- C2 counterexample: a 200-bar series with bias ≈ +90.5% > 15 and price
not below MA20, on which the classifier does not return TAKE_PROFIT
(because MA20 < MA60, the bullish branch never fires; the result is the
default Hold). -/
theorem take_profit_cascade_cex :
    fgt (biasOf ((constBars closes200hold).map Bar.close)) (.fin 15) = true ∧
    flt (.fin (priceOf ((constBars closes200hold).map Bar.close)))
      (ma20Of ((constBars closes200hold).map Bar.close)) = false ∧
    (getMarketOverview (constBars closes200hold)).rating ≠ .bullishTakeProfit := by
  refine ⟨?_, ?_, ?_⟩
  · rw [constBars_closes, ev200_bias]
    norm_num [fgt, flt]
  · rw [constBars_closes, ev200_price, ev200_ma20]
    norm_num [flt]
  · rw [overview_rating, constBars_closes, ev200_price, ev200_ma20, ev200_ma60]
    norm_num [classify, flt, fgt]
    decide

/-- C2 amended: the TAKE_PROFIT (中立/止盈) rating fires exactly when the
bullish structure holds (price > MA20 and MA20 > MA60) and bias% > 15;
RSI plays no role and there is no trend-independent trigger. -/
theorem take_profit_requires_bullish_structure (bars : List Bar) :
    (getMarketOverview bars).rating = .bullishTakeProfit ↔
      (fgt (.fin (priceOf (bars.map Bar.close))) (ma20Of (bars.map Bar.close)) = true ∧
       fgt (ma20Of (bars.map Bar.close)) (ma60Of (bars.map Bar.close)) = true ∧
       fgt (biasOf (bars.map Bar.close)) (.fin 15) = true) := by
  rw [overview_rating]
  exact classify_eq_takeProfit

/-- C7: the classifier returns BUY/LONG (Overweight) iff the latest close
is strictly above MA20, MA20 strictly above MA60, and bias% strictly
below the pullback threshold 8 — the higher-priority SELL rule
(price < MA20) can never hold simultaneously. -/
theorem buy_rule_iff (bars : List Bar) :
    (getMarketOverview bars).rating = .bullishBuy ↔
      (fgt (.fin (priceOf (bars.map Bar.close))) (ma20Of (bars.map Bar.close)) = true ∧
       fgt (ma20Of (bars.map Bar.close)) (ma60Of (bars.map Bar.close)) = true ∧
       flt (biasOf (bars.map Bar.close)) (.fin 8) = true) := by
  rw [overview_rating]
  exact classify_eq_buy

/-! ### RSI: saturation, bounds, degenerate window (C6, C10) -/

lemma lastN_cons (x : ℚ) (l : List ℚ) (w : ℕ) (h : w ≤ l.length) :
    lastN w (x :: l) = lastN w l := by
  unfold lastN
  rw [List.length_cons, show l.length + 1 - w = (l.length - w) + 1 by omega,
    List.drop_succ_cons]

lemma lastN_map (f : ℚ → ℚ) (l : List ℚ) (w : ℕ) :
    lastN w (l.map f) = (lastN w l).map f := by
  simp [lastN]

lemma diffsOf_length (closes : List ℚ) : (diffsOf closes).length = closes.length - 1 := by
  simp [diffsOf]

lemma gainAvg_eq (closes : List ℚ) (h : 15 ≤ closes.length) :
    gainAvg closes =
      .fin (((lastN 14 (diffsOf closes)).map (fun d => if 0 < d then d else 0)).sum / 14) := by
  have hd : (diffsOf closes).length = closes.length - 1 := diffsOf_length closes
  rw [gainAvg, rollMeanLast, gainsList,
    if_neg (by simp [hd]; omega),
    lastN_cons _ _ _ (by simp [hd]; omega), lastN_map]
  norm_num

lemma lossAvg_eq (closes : List ℚ) (h : 15 ≤ closes.length) :
    lossAvg closes =
      .fin (((lastN 14 (diffsOf closes)).map (fun d => if d < 0 then -d else 0)).sum / 14) := by
  have hd : (diffsOf closes).length = closes.length - 1 := diffsOf_length closes
  rw [lossAvg, rollMeanLast, lossList,
    if_neg (by simp [hd]; omega),
    lastN_cons _ _ _ (by simp [hd]; omega), lastN_map]
  norm_num

/-- C6: (a) if the trailing 14 deltas are all non-negative with at least
one strictly positive (average loss 0, average gain positive), the RSI
is exactly 100 — the division by a zero average loss saturates rather
than raising; (b) whenever the average gain and average loss of the
window are both positive, the RSI is a finite value in [0, 100]. -/
theorem rsi_saturation_and_bounds (closes : List ℚ) (h : 15 ≤ closes.length) :
    ((∀ x ∈ lastN 14 (diffsOf closes), 0 ≤ x) →
      (∃ x ∈ lastN 14 (diffsOf closes), 0 < x) →
      rsiOf closes = .fin 100) ∧
    (∀ g l : ℚ, gainAvg closes = .fin g → lossAvg closes = .fin l →
      0 < g → 0 < l → ∃ q : ℚ, rsiOf closes = .fin q ∧ 0 ≤ q ∧ q ≤ 100) := by
  constructor
  · intro hnn hex
    obtain ⟨x, hx, hxpos⟩ := hex
    have hl : lossAvg closes = .fin 0 := by
      rw [lossAvg_eq closes h]
      have : ((lastN 14 (diffsOf closes)).map (fun d => if d < 0 then -d else 0)).sum = 0 := by
        apply List.sum_eq_zero
        intro y hy
        obtain ⟨d, hd, rfl⟩ := List.mem_map.mp hy
        have := hnn d hd
        rw [if_neg (not_lt.mpr this)]
      rw [this]
      norm_num
    have hgpos : ∀ gs : ℚ,
        gs = ((lastN 14 (diffsOf closes)).map (fun d => if 0 < d then d else 0)).sum →
        0 < gs := by
      intro gs hgs
      have hmem : (x : ℚ) ∈ (lastN 14 (diffsOf closes)).map (fun d => if 0 < d then d else 0) := by
        refine List.mem_map.mpr ⟨x, hx, ?_⟩
        rw [if_pos hxpos]
      have hnn2 : ∀ y ∈ (lastN 14 (diffsOf closes)).map (fun d => if 0 < d then d else 0),
          (0:ℚ) ≤ y := by
        intro y hy
        obtain ⟨d, hd, rfl⟩ := List.mem_map.mp hy
        by_cases hdp : 0 < d
        · rw [if_pos hdp]; linarith
        · rw [if_neg hdp]
      have := List.single_le_sum hnn2 x hmem
      rw [hgs]
      linarith
    have hg := gainAvg_eq closes h
    have hgv : (0:ℚ) <
        ((lastN 14 (diffsOf closes)).map (fun d => if 0 < d then d else 0)).sum / 14 := by
      have := hgpos _ rfl
      positivity
    rw [rsiOf, rsOf, hg, hl]
    rw [show fdiv (EFloat.fin
        (((lastN 14 (diffsOf closes)).map (fun d => if 0 < d then d else 0)).sum / 14))
        (EFloat.fin 0) = EFloat.inf by
      simp [fdiv]
      intro hc
      linarith]
    norm_num [fadd, fdiv, fsub, fneg]
  · intro g l hg hl hgpos hlpos
    have hratio : (0:ℚ) < g / l := by positivity
    have hden : (0:ℚ) < 1 + g / l := by linarith
    refine ⟨100 + -(100 / (1 + g / l)), ?_, ?_, ?_⟩
    · rw [rsiOf, rsOf, hg, hl]
      rw [show fdiv (EFloat.fin g) (EFloat.fin l) = EFloat.fin (g / l) by
        simp [fdiv]
        intro hc
        rw [hc] at hlpos
        exact absurd hlpos (by norm_num)]
      rw [show fadd (EFloat.fin 1) (EFloat.fin (g / l)) = EFloat.fin (1 + g / l) from rfl]
      rw [show fdiv (EFloat.fin 100) (EFloat.fin (1 + g / l)) =
          EFloat.fin (100 / (1 + g / l)) by
        simp [fdiv]
        intro hc
        rw [hc] at hden
        exact absurd hden (by norm_num)]
      rfl
    · have h1 : (1:ℚ) ≤ 1 + g / l := by linarith
      have : 100 / (1 + g / l) ≤ 100 := div_le_self (by norm_num) h1
      linarith
    · have : (0:ℚ) < 100 / (1 + g / l) := by positivity
      linarith

/-- A strictly increasing 15-bar series: all 14 window deltas positive. -/
def asc15 : List ℚ := [1, 2, 3, 4, 5, 6, 7, 8, 9, 10, 11, 12, 13, 14, 15]

/-- An alternating 15-bar series: 7 up moves and 7 down moves in the
window, so average gain and average loss are both 1/2. -/
def alt15 : List ℚ := [1, 2, 1, 2, 1, 2, 1, 2, 1, 2, 1, 2, 1, 2, 1]

lemma ev_asc15_diffs : diffsOf asc15 = List.replicate 14 1 := by
  norm_num [asc15, diffsOf, List.replicate]

lemma ev_alt15_gain : gainAvg alt15 = .fin (1/2) := by
  rw [gainAvg_eq alt15 (by norm_num [alt15])]
  norm_num [alt15, diffsOf, lastN]

lemma ev_alt15_loss : lossAvg alt15 = .fin (1/2) := by
  rw [lossAvg_eq alt15 (by norm_num [alt15])]
  norm_num [alt15, diffsOf, lastN]

/-- Witness for C6: the ascending series saturates at RSI = 100, and the
alternating series has a finite RSI within [0, 100]. -/
theorem rsi_saturation_and_bounds_witness :
    rsiOf asc15 = .fin 100 ∧
    ∃ q : ℚ, rsiOf alt15 = .fin q ∧ 0 ≤ q ∧ q ≤ 100 := by
  constructor
  · refine (rsi_saturation_and_bounds asc15 (by norm_num [asc15])).1 ?_ ?_
    · rw [ev_asc15_diffs]
      intro x hx
      rw [List.eq_of_mem_replicate hx]
      norm_num
    · refine ⟨1, ?_, by norm_num⟩
      rw [ev_asc15_diffs]
      exact List.mem_replicate.mpr ⟨by norm_num, rfl⟩
  · exact (rsi_saturation_and_bounds alt15 (by norm_num [alt15])).2 (1/2) (1/2)
      ev_alt15_gain ev_alt15_loss (by norm_num) (by norm_num)

lemma overview_rsi (bars : List Bar) :
    (getMarketOverview bars).rsi = rsiOf (bars.map Bar.close) := rfl

lemma lastN_diffsOf (closes : List ℚ) (w : ℕ) (h : w + 1 ≤ closes.length) :
    lastN w (diffsOf closes) = diffsOf (lastN (w + 1) closes) := by
  unfold lastN diffsOf
  have hlen : (List.zipWith (fun a b => a - b) closes.tail closes).length
      = closes.length - 1 := by
    simp
  rw [hlen, List.drop_zipWith, List.tail_drop]
  rw [← List.drop_one, List.drop_drop]
  have h1 : 1 + (closes.length - 1 - w) = closes.length - (w + 1) + 1 := by omega
  have h2 : closes.length - 1 - w = closes.length - (w + 1) := by omega
  rw [h1, h2]

/-- The series of the C10 counterexample: the trailing 14 closes all
equal 100, but the 14-delta RSI window still contains the +50 move from
the 15th-to-last close. -/
def closes16 : List ℚ := [100, 50] ++ List.replicate 14 100

lemma ev_closes16_gain : gainAvg closes16 = .fin (25/7) := by
  rw [gainAvg_eq closes16 (by simp [closes16])]
  norm_num [closes16, diffsOf, lastN, List.replicate]

lemma ev_closes16_loss : lossAvg closes16 = .fin 0 := by
  rw [lossAvg_eq closes16 (by simp [closes16])]
  norm_num [closes16, diffsOf, lastN, List.replicate]

/-- C10 counterexample: a series whose trailing 14 closes are all equal,
yet whose RSI is 100 (not NaN): the 14-delta window spans 15 closes, so
one delta can be nonzero even when the trailing 14 closes agree. -/
theorem rsi_constant_window_cex :
    lastN 14 ((constBars closes16).map Bar.close) = List.replicate 14 100 ∧
    (getMarketOverview (constBars closes16)).rsi = .fin 100 ∧
    (getMarketOverview (constBars closes16)).rsi ≠ EFloat.nan := by
  refine ⟨?_, ?_, ?_⟩
  · rw [constBars_closes]
    norm_num [closes16, lastN, List.replicate]
  · rw [overview_rsi, constBars_closes, rsiOf, rsOf, ev_closes16_gain, ev_closes16_loss]
    rw [show fdiv (EFloat.fin (25/7)) (EFloat.fin 0) = EFloat.inf by norm_num [fdiv]]
    norm_num [fadd, fdiv, fsub, fneg]
  · rw [overview_rsi, constBars_closes, rsiOf, rsOf, ev_closes16_gain, ev_closes16_loss]
    rw [show fdiv (EFloat.fin (25/7)) (EFloat.fin 0) = EFloat.inf by norm_num [fdiv]]
    norm_num [fadd, fdiv, fsub, fneg]
    simp

/-- C10 amended: when the trailing **15** closes are all equal — so every
delta of the 14-delta RSI window is 0 and both rolling averages vanish —
the RSI is the NaN sentinel from `0/0` (not 100, and no exception), and
this NaN is the `rsi` field of the metrics bundle that
`get_market_overview` returns. -/
theorem rsi_constant_window (bars : List Bar) (c : ℚ)
    (h : 15 ≤ (bars.map Bar.close).length)
    (hc : lastN 15 (bars.map Bar.close) = List.replicate 15 c) :
    rsiOf (bars.map Bar.close) = EFloat.nan ∧
    (getMarketOverview bars).rsi = EFloat.nan ∧
    (getMarketOverview bars).rsi ≠ .fin 100 := by
  set closes := bars.map Bar.close with hcl
  have hdiffs : lastN 14 (diffsOf closes) = List.replicate 14 0 := by
    have h14 := lastN_diffsOf closes 14 (by omega)
    rw [show (14:ℕ) + 1 = 15 by norm_num] at h14
    rw [h14, hc]
    unfold diffsOf
    rw [List.tail_replicate]
    norm_num [List.zipWith_replicate]
  have hg : gainAvg closes = .fin 0 := by
    rw [gainAvg_eq closes h, hdiffs]
    norm_num
  have hl : lossAvg closes = .fin 0 := by
    rw [lossAvg_eq closes h, hdiffs]
    norm_num
  have hrsi : rsiOf closes = EFloat.nan := by
    rw [rsiOf, rsOf, hg, hl]
    rw [show fdiv (EFloat.fin 0) (EFloat.fin 0) = EFloat.nan by norm_num [fdiv]]
    rfl
  refine ⟨hrsi, ?_, ?_⟩
  · rw [overview_rsi, ← hcl, hrsi]
  · rw [overview_rsi, ← hcl, hrsi]
    simp

/-- A 20-bar constant series (every close 100). -/
def constCloses20 : List ℚ := List.replicate 20 100

/-- Witness for the amended C10: on a constant 20-bar series the RSI of
the returned bundle is NaN. -/
theorem rsi_constant_window_witness :
    rsiOf ((constBars constCloses20).map Bar.close) = EFloat.nan ∧
    (getMarketOverview (constBars constCloses20)).rsi = EFloat.nan ∧
    (getMarketOverview (constBars constCloses20)).rsi ≠ .fin 100 := by
  refine rsi_constant_window (constBars constCloses20) 100 ?_ ?_
  · rw [constBars_closes]
    simp [constCloses20]
  · rw [constBars_closes]
    norm_num [constCloses20, lastN, List.drop_replicate]

/-! ### Monte Carlo simulator: block structure and path composition (C3, C4, C5) -/

lemma foldl_append_eq_join (f : ℕ → List ℚ) (l : List ℕ) (acc : List ℚ) :
    l.foldl (fun a j => a ++ f j) acc = acc ++ (l.map f).join := by
  induction l generalizing acc with
  | nil => simp
  | cons x xs ih => simp [ih, List.append_assoc]

lemma pathReturns_eq_join (returns : List ℚ) (numBlocks : ℕ) (draw : ℕ → ℕ) :
    pathReturns returns numBlocks draw =
      ((List.range numBlocks).map (fun j => (returns.drop (draw j)).take blockSize)).join := by
  rw [pathReturns, foldl_append_eq_join]
  rfl

lemma cumprodFrom_length (acc : ℚ) (xs : List ℚ) :
    (cumprodFrom acc xs).length = xs.length := by
  induction xs generalizing acc with
  | nil => rfl
  | cons x xs ih => simp [cumprodFrom, ih]

lemma cumprodFrom_getD (xs : List ℚ) (acc : ℚ) (t : ℕ) (ht : t < xs.length) :
    (cumprodFrom acc xs).getD t 0 = acc * (xs.take (t + 1)).prod := by
  induction xs generalizing acc t with
  | nil => simp at ht
  | cons x xs ih =>
      cases t with
      | zero => simp [cumprodFrom]
      | succ t =>
          simp only [cumprodFrom, List.getD_cons_succ, List.take_succ_cons, List.prod_cons]
          rw [ih (acc * x) t (by simpa using ht)]
          ring

lemma simPath_length (returns : List ℚ) (lastPrice : ℚ) (numBlocks : ℕ) (draw : ℕ → ℕ) :
    (simPath returns lastPrice numBlocks draw).length =
      (pathReturns returns numBlocks draw).length := by
  simp [simPath, cumprod, cumprodFrom_length]

lemma getD_map_of_lt (f : ℚ → ℚ) (l : List ℚ) (t : ℕ) (h : t < l.length) (d d' : ℚ) :
    (l.map f).getD t d = f (l.getD t d') := by
  simp [List.getD_eq_getElem?_getD, List.getElem?_map, List.getElem?_eq_getElem h]

lemma getLastD_eq_getD (l : List ℚ) (d : ℚ) : l.getLastD d = l.getD (l.length - 1) d := by
  rw [List.getLastD_eq_getLast?, List.getLast?_eq_getElem?, List.getD_eq_getElem?_getD]

lemma runMC_simPaths_getD (closes : List ℚ) (draw : ℕ → ℕ → ℕ) (sims days i : ℕ)
    (hi : i < sims) :
    (runMonteCarloVar closes draw sims days).simPaths.getD i [] =
      simPath (returnsOf closes) (priceOf closes) (days / blockSize) (draw i) := by
  simp [runMonteCarloVar, List.getD_eq_getElem?_getD, List.getElem?_map,
    List.getElem?_range hi]

lemma join_slices_length (returns : List ℚ) (dr : ℕ → ℕ)
    (hdr : ∀ j, dr j < returns.length - blockSize) (L : List ℕ) :
    (((L.map fun j => (returns.drop (dr j)).take blockSize)).map List.length).sum =
      L.length * blockSize := by
  induction L with
  | nil => simp
  | cons x xs ih =>
      have hx := hdr x
      have : ((returns.drop (dr x)).take blockSize).length = blockSize := by
        simp only [List.length_take, List.length_drop]
        omega
      simp only [List.map_cons, List.sum_cons, this, ih, List.length_cons]
      ring

lemma except_bind_ok {α β : Type} (x : α) (f : α → Except Unit β) :
    Except.bind (.ok x) f = f x := rfl

lemma except_bind_err {α β : Type} (f : α → Except Unit β) :
    Except.bind (Except.error () : Except Unit α) f = .error () := rfl

lemma mapM_range_err (f : ℕ → Except Unit (List ℚ)) (sims : ℕ) (hs : 0 < sims)
    (h0 : f 0 = .error ()) : (List.range sims).mapM f = .error () := by
  cases sims with
  | zero => omega
  | succ k =>
      rw [List.range_succ_eq_map, List.mapM_cons, h0]
      rfl

lemma mapM_ok_of_forall (f : ℕ → Except Unit (List ℚ)) (g : ℕ → List ℚ) (l : List ℕ)
    (h : ∀ i ∈ l, f i = .ok (g i)) : l.mapM f = .ok (l.map g) := by
  induction l with
  | nil => rfl
  | cons a as ih =>
      rw [List.mapM_cons, h a (List.mem_cons_self a as),
        ih (fun i hi => h i (List.mem_cons_of_mem a hi))]
      rfl

/-- C4 amended: block drawing in `run_monte_carlo_var` — the per-path
return sequence is the concatenation of `horizon_days / block_size`
(floor division) contiguous slices of `block_size` consecutive
historical returns, each starting at the drawn index; under the
`np.random.randint(0, len(returns) − block_size)` range guarantee every
slice is full, so each path carries `(days / block_size) · block_size`
returns and remainder days are never simulated — but not silently: when
`block_size` divides `days` (and `days > 0`) every row assignment fits
and the run returns exactly the `runMonteCarloVar` summary of the fully
simulated horizon, and when it does not divide, the first row
assignment into the preallocated `simulations × days` matrix raises a
broadcast error and the run aborts. -/
theorem mc_block_drawing (closes : List ℚ) (draw : ℕ → ℕ → ℕ) (sims days i : ℕ)
    (hi : i < sims)
    (hdraw : ∀ ip, ip < sims → ∀ j, draw ip j < (returnsOf closes).length - blockSize) :
    pathReturns (returnsOf closes) (days / blockSize) (draw i) =
      ((List.range (days / blockSize)).map
        (fun j => ((returnsOf closes).drop (draw i j)).take blockSize)).join ∧
    (∀ j, (((returnsOf closes).drop (draw i j)).take blockSize).length = blockSize) ∧
    ((runMonteCarloVar closes draw sims days).simPaths.getD i []).length =
      (days / blockSize) * blockSize ∧
    (¬ (blockSize ∣ days) → runMonteCarloVarNp closes draw sims days = .error ()) ∧
    (blockSize ∣ days → 0 < days →
      runMonteCarloVarNp closes draw sims days =
        .ok (runMonteCarloVar closes draw sims days)) := by
  have hslice : ∀ j, (((returnsOf closes).drop (draw i j)).take blockSize).length =
      blockSize := by
    intro j
    have := hdraw i hi j
    simp only [List.length_take, List.length_drop]
    omega
  have hplen : ∀ ip, ip < sims →
      (simPath (returnsOf closes) (priceOf closes) (days / blockSize) (draw ip)).length =
        (days / blockSize) * blockSize := by
    intro ip hip
    rw [simPath_length, pathReturns_eq_join, List.length_join, List.map_map]
    have := join_slices_length (returnsOf closes) (draw ip) (hdraw ip hip)
      (List.range (days / blockSize))
    rw [List.map_map] at this
    rw [this, List.length_range]
  have hlen : ((runMonteCarloVar closes draw sims days).simPaths.getD i []).length =
      (days / blockSize) * blockSize := by
    rw [runMC_simPaths_getD closes draw sims days i hi]
    exact hplen i hi
  refine ⟨pathReturns_eq_join _ _ _, hslice, hlen, ?_, ?_⟩
  · intro hnd
    have h0len := hplen 0 (by omega)
    have hne : (days / blockSize) * blockSize ≠ days := by
      intro he
      exact hnd ⟨days / blockSize, by rw [mul_comm]; exact he.symm⟩
    have hne1 : (days / blockSize) * blockSize ≠ 1 := by
      simp only [blockSize]
      omega
    have h0 : npRowAssign days (simPath (returnsOf closes) (priceOf closes)
        (days / blockSize) (draw 0)) = .error () := by
      simp only [npRowAssign, h0len]
      rw [if_neg hne, if_neg hne1]
    simp only [runMonteCarloVarNp]
    rw [mapM_range_err _ sims (by omega) h0, except_bind_err]
  · intro hdvd hdpos
    have hall : ∀ ip ∈ List.range sims,
        npRowAssign days (simPath (returnsOf closes) (priceOf closes)
          (days / blockSize) (draw ip)) =
          .ok (simPath (returnsOf closes) (priceOf closes) (days / blockSize) (draw ip)) := by
      intro ip hip
      have hip2 := List.mem_range.mp hip
      have hl : (simPath (returnsOf closes) (priceOf closes) (days / blockSize)
          (draw ip)).length = days := by
        rw [hplen ip hip2]
        exact Nat.div_mul_cancel hdvd
      simp only [npRowAssign]
      rw [if_pos hl]
    simp only [runMonteCarloVarNp]
    rw [mapM_ok_of_forall _
      (fun ip => simPath (returnsOf closes) (priceOf closes) (days / blockSize) (draw ip))
      _ hall, except_bind_ok]
    simp only [mcSummaryOf]
    rw [if_neg (by omega), if_neg (by omega)]
    have hrows : ∀ p ∈ (List.range sims).map
        (fun ip => simPath (returnsOf closes) (priceOf closes) (days / blockSize) (draw ip)),
        p.getD (days - 1) 0 = p.getLastD 0 := by
      intro p hp
      obtain ⟨ip, hip, rfl⟩ := List.mem_map.mp hp
      have hip2 := List.mem_range.mp hip
      have hl : (simPath (returnsOf closes) (priceOf closes) (days / blockSize)
          (draw ip)).length = days := by
        rw [hplen ip hip2]
        exact Nat.div_mul_cancel hdvd
      rw [getLastD_eq_getD, hl]
    rw [List.map_congr_left hrows]
    simp only [runMonteCarloVar]

/-- C5: path composition — each simulated price at day `t` is the last
observed close times the product of `(1 + r)` over the first `t+1` drawn
returns of that path, and the terminal price is the last close times the
product over all of the path's drawn returns. -/
theorem mc_path_composition (closes : List ℚ) (draw : ℕ → ℕ → ℕ) (sims days i t : ℕ)
    (hi : i < sims)
    (ht : t < ((runMonteCarloVar closes draw sims days).simPaths.getD i []).length) :
    ((runMonteCarloVar closes draw sims days).simPaths.getD i []).getD t 0 =
      priceOf closes *
        (((pathReturns (returnsOf closes) (days / blockSize) (draw i)).take (t + 1)).map
          (fun r => 1 + r)).prod ∧
    ((runMonteCarloVar closes draw sims days).simPaths.getD i []).getLastD 0 =
      priceOf closes *
        ((pathReturns (returnsOf closes) (days / blockSize) (draw i)).map
          (fun r => 1 + r)).prod := by
  rw [runMC_simPaths_getD closes draw sims days i hi] at ht ⊢
  set prets := pathReturns (returnsOf closes) (days / blockSize) (draw i) with hprets
  set xs := prets.map (fun r => 1 + r) with hxs
  have hxlen : (cumprod xs).length = xs.length := cumprodFrom_length 1 xs
  have hplen : (simPath (returnsOf closes) (priceOf closes) (days / blockSize)
      (draw i)).length = xs.length := by
    rw [simPath_length, hxs, List.length_map]
  have hget : ∀ u, u < xs.length →
      (simPath (returnsOf closes) (priceOf closes) (days / blockSize) (draw i)).getD u 0 =
        priceOf closes * ((prets.take (u + 1)).map (fun r => 1 + r)).prod := by
    intro u hu
    rw [simPath, ← hprets, ← hxs, getD_map_of_lt _ _ _ (by rw [hxlen]; exact hu) 0 0,
      show cumprod xs = cumprodFrom 1 xs from rfl, cumprodFrom_getD xs 1 u hu, one_mul,
      hxs, ← List.map_take]
  have ht' : t < xs.length := by rw [← hplen]; exact ht
  constructor
  · exact hget t ht'
  · have hne : 0 < xs.length := Nat.lt_of_le_of_lt (Nat.zero_le t) ht'
    rw [getLastD_eq_getD, hplen, hget (xs.length - 1) (by omega)]
    have : prets.take (xs.length - 1 + 1) = prets := by
      rw [show xs.length - 1 + 1 = xs.length by omega, hxs, List.length_map]
      exact List.take_length prets
    rw [this]

/-- The 8-bar close series used for concrete simulator runs; its return
series has 7 entries, so `randint(0, 7 - 5)` admits the starts 0 and 1. -/
def closes8 : List ℚ := [1, 2, 4, 2, 4, 8, 4, 8]

/-- A random oracle: path `i` always draws start index `i`. -/
def drawId : ℕ → ℕ → ℕ := fun i _ => i

lemma ev_returns8 : returnsOf closes8 = [1, 1, -(1/2 : ℚ), 1, 1, -(1/2), 1] := by
  norm_num [returnsOf, closes8]

lemma ev_price8 : priceOf closes8 = 8 := by
  norm_num [priceOf, closes8]

lemma ev_path0 : simPath (returnsOf closes8) (priceOf closes8) 1 (drawId 0) =
    [16, 32, 16, 32, 64] := by
  norm_num [simPath, pathReturns, cumprod, cumprodFrom, ev_returns8, ev_price8, drawId,
    blockSize, List.range_succ]

lemma ev_path1 : simPath (returnsOf closes8) (priceOf closes8) 1 (drawId 1) =
    [16, 8, 16, 32, 16] := by
  norm_num [simPath, pathReturns, cumprod, cumprodFrom, ev_returns8, ev_price8, drawId,
    blockSize, List.range_succ]

/-- C4 counterexample: at `horizon_days = 7` (not a multiple of the
block size 5) the source does not silently simulate a shorter horizon:
the very first row assignment broadcasts a length-5 value into a
length-7 row of the preallocated matrix and raises, so the run aborts
instead of returning shorter paths. -/
theorem mc_nondivisible_horizon_cex :
    runMonteCarloVarNp closes8 drawId 2 7 = .error () ∧ ¬ (blockSize ∣ 7) := by
  refine ⟨?_, by decide⟩
  simp only [runMonteCarloVarNp]
  have h0 : npRowAssign 7 (simPath (returnsOf closes8) (priceOf closes8)
      (7 / blockSize) (drawId 0)) = .error () := by
    rw [show (7 / blockSize : ℕ) = 1 from rfl, ev_path0]
    norm_num [npRowAssign]
  rw [mapM_range_err _ 2 (by norm_num) h0, except_bind_err]

lemma ev_sort : sortAsc [64, 16] = [(16:ℚ), 64] := by
  norm_num [sortAsc, sortedInsert]

lemma ev_pct5 : percentile 5 [64, 16] = 92/5 := by
  rw [percentile, ev_sort]
  norm_num
  rw [show ⌈(1:ℚ)/20⌉ = 1 by rw [Int.ceil_eq_iff] <;> norm_num]
  norm_num

lemma ev_pct50 : percentile 50 [64, 16] = 40 := by
  rw [percentile, ev_sort]
  norm_num
  rw [show ⌈(1:ℚ)/2⌉ = 1 by rw [Int.ceil_eq_iff] <;> norm_num]
  norm_num

lemma ev_pct95 : percentile 95 [64, 16] = 308/5 := by
  rw [percentile, ev_sort]
  norm_num
  rw [show ⌈(19:ℚ)/20⌉ = 1 by rw [Int.ceil_eq_iff] <;> norm_num]
  norm_num

lemma ev_runMC8 : runMonteCarloVar closes8 drawId 2 5 =
    { simPaths := [[16, 32, 16, 32, 64], [16, 8, 16, 32, 16]],
      maxDd := 130, winRate := 100, p5 := 92/5 } := by
  rw [runMonteCarloVar]
  rw [show (5 / blockSize) = 1 from rfl]
  rw [show List.range 2 = [0, 1] from rfl]
  simp only [List.map_cons, List.map_nil]
  rw [ev_path0, ev_path1, ev_price8]
  norm_num [ev_pct5, List.countP, List.countP.go]

/-- C3 counterexample: on a concrete two-path run, none of the scalar
outputs of `run_monte_carlo_var` (`max_dd`, `win_rate`, `p5`) equals the
50th or the 95th percentile of the terminal prices: the summary does not
contain percentile-50 or percentile-95. -/
theorem mc_summary_cex :
    ((runMonteCarloVar closes8 drawId 2 5).p5 ≠
        percentile 50 ((runMonteCarloVar closes8 drawId 2 5).simPaths.map
          (fun p => p.getLastD 0)) ∧
      (runMonteCarloVar closes8 drawId 2 5).maxDd ≠
        percentile 50 ((runMonteCarloVar closes8 drawId 2 5).simPaths.map
          (fun p => p.getLastD 0)) ∧
      (runMonteCarloVar closes8 drawId 2 5).winRate ≠
        percentile 50 ((runMonteCarloVar closes8 drawId 2 5).simPaths.map
          (fun p => p.getLastD 0))) ∧
    ((runMonteCarloVar closes8 drawId 2 5).p5 ≠
        percentile 95 ((runMonteCarloVar closes8 drawId 2 5).simPaths.map
          (fun p => p.getLastD 0)) ∧
      (runMonteCarloVar closes8 drawId 2 5).maxDd ≠
        percentile 95 ((runMonteCarloVar closes8 drawId 2 5).simPaths.map
          (fun p => p.getLastD 0)) ∧
      (runMonteCarloVar closes8 drawId 2 5).winRate ≠
        percentile 95 ((runMonteCarloVar closes8 drawId 2 5).simPaths.map
          (fun p => p.getLastD 0))) := by
  rw [ev_runMC8]
  norm_num
  rw [ev_pct50, ev_pct95]
  norm_num

/-- C3 amended: the summary of `run_monte_carlo_var` consists of the
percentile-5 of the terminal prices of the simulated paths,
`win_rate = count(terminal > last_observed_price) / simulations × 100`,
and a VaR-style drawdown `(p5 − last_price)/last_price × 100`;
percentile-50 and percentile-95 are not computed. -/
theorem mc_summary_contents (closes : List ℚ) (draw : ℕ → ℕ → ℕ) (sims days : ℕ) :
    (runMonteCarloVar closes draw sims days).p5 =
      percentile 5 ((runMonteCarloVar closes draw sims days).simPaths.map
        (fun p => p.getLastD 0)) ∧
    (runMonteCarloVar closes draw sims days).winRate =
      ((((runMonteCarloVar closes draw sims days).simPaths.map
        (fun p => p.getLastD 0)).countP (fun t => priceOf closes < t) : ℕ) : ℚ) /
        (sims : ℚ) * 100 ∧
    (runMonteCarloVar closes draw sims days).maxDd =
      ((runMonteCarloVar closes draw sims days).p5 - priceOf closes) / priceOf closes * 100 := by
  refine ⟨rfl, rfl, rfl⟩

/-- Witness for C4: in the concrete 5-day run each path holds
`(5/5)·5 = 5` simulated days and the checked run agrees with the
success-path summary, while the concrete 7-day run raises at the first
row assignment. -/
theorem mc_block_drawing_witness :
    ((runMonteCarloVar closes8 drawId 2 5).simPaths.getD 0 []).length = 5 ∧
    runMonteCarloVarNp closes8 drawId 2 5 = .ok (runMonteCarloVar closes8 drawId 2 5) ∧
    runMonteCarloVarNp closes8 drawId 2 7 = .error () := by
  have hdraw : ∀ ip, ip < 2 → ∀ j, drawId ip j < (returnsOf closes8).length - blockSize := by
    intro ip hip j
    norm_num [ev_returns8, blockSize, drawId]
    omega
  have h5 := mc_block_drawing closes8 drawId 2 5 0 (by norm_num) hdraw
  have h7 := mc_block_drawing closes8 drawId 2 7 0 (by norm_num) hdraw
  exact ⟨by simpa using h5.2.2.1, h5.2.2.2.2 (by decide) (by norm_num),
    h7.2.2.2.1 (by decide)⟩

/-- Witness for C5: the terminal price of the concrete second path is
the last close times the product of `(1 + r)` over its drawn returns. -/
theorem mc_path_composition_witness :
    ((runMonteCarloVar closes8 drawId 2 5).simPaths.getD 1 []).getLastD 0 =
      priceOf closes8 *
        ((pathReturns (returnsOf closes8) (5 / blockSize) (drawId 1)).map
          (fun r => 1 + r)).prod := by
  refine (mc_path_composition closes8 drawId 2 5 1 0 (by norm_num) ?_).2
  rw [runMC_simPaths_getD closes8 drawId 2 5 1 (by norm_num)]
  rw [show (5 / blockSize : ℕ) = 1 from rfl, ev_path1]
  norm_num

/-! ### Fetch failure handling (C8) and ticker normalization (C9) -/

/-- C8: a raising download and a series shorter than the 200-bar minimum
(within the spec's 100–250 range) both yield the no-data sentinel
`none`, and the batch loop maps each ticker to a result computed from
that ticker's fetch alone — a failing ticker contributes `none` and the
rest of the batch is processed unchanged. -/
theorem fetch_failure_handling :
    fetchData (.error ()) = none ∧
    (∀ df : List Bar, df.length < minLookback → fetchData (.ok df) = none) ∧
    (100 ≤ minLookback ∧ minLookback ≤ 250) ∧
    (∀ rs : List (Except Unit (List Bar)),
      (processBatch rs).length = rs.length ∧
      ∀ j, j < rs.length →
        (processBatch rs).getD j none = processTicker (rs.getD j (.error ()))) := by
  refine ⟨rfl, ?_, ⟨by norm_num [minLookback], by norm_num [minLookback]⟩, ?_⟩
  · intro df h
    simp only [fetchData]
    rw [if_pos h]
  · intro rs
    refine ⟨by simp [processBatch], ?_⟩
    intro j hj
    simp only [processBatch, List.getD_eq_getElem?_getD, List.getElem?_map]
    rw [List.getElem?_eq_getElem hj]
    rfl

/-- Witness for C8: a raising fetch and a 1-bar series both come back as
`none`, and the batch entry of a failing ticker is its own
`processTicker` result. -/
theorem fetch_failure_handling_witness :
    fetchData (Except.error ()) = none ∧
    fetchData (Except.ok (constBars [100])) = none ∧
    (processBatch [Except.error ()]).getD 0 none = processTicker (Except.error ()) := by
  obtain ⟨h1, h2, _, h4⟩ := fetch_failure_handling
  refine ⟨h1, h2 _ (by norm_num [constBars, minLookback]), ?_⟩
  have := (h4 [Except.error ()]).2 0 (by norm_num)
  simpa using this

/-- C9: normalization is idempotent — a ticker already ending in `.TW`
is left unchanged, and normalizing twice equals normalizing once. -/
theorem normalize_idempotent (t : List Char) :
    (hasTwSuffix t = true → normalizeTicker t = t) ∧
    normalizeTicker (normalizeTicker t) = normalizeTicker t := by
  have hfix : hasTwSuffix t = true → normalizeTicker t = t := by
    intro h
    rw [normalizeTicker, if_pos h]
  refine ⟨hfix, ?_⟩
  by_cases h : hasTwSuffix t = true
  · rw [hfix h, hfix h]
  · rw [Bool.not_eq_true] at h
    have ht : normalizeTicker t = t ++ twSuffix := by
      rw [normalizeTicker, if_neg (by simp [h])]
    have hsuf : hasTwSuffix (t ++ twSuffix) = true := by
      simp only [hasTwSuffix]
      have hl : (t ++ twSuffix).length - 3 = t.length := by simp [twSuffix]
      rw [hl, List.drop_left' rfl]
      simp
    rw [ht, normalizeTicker, if_pos hsuf]

/-- The already-normalized ticker `"2330.TW"`. -/
def tkrTW : List Char := ['2', '3', '3', '0', '.', 'T', 'W']

/-- Witness for C9: `"2330.TW"` already ends in `.TW` and is left
unchanged by the constructor's normalization. -/
theorem normalize_idempotent_witness :
    hasTwSuffix tkrTW = true ∧ normalizeTicker tkrTW = tkrTW := by
  have h : hasTwSuffix tkrTW = true := by decide
  exact ⟨h, (normalize_idempotent tkrTW).1 h⟩

end StockApp
